import Mathlib

/-!
Verification of the clox-style hash table, string interner and Pratt compiler
of this repository. C source files `table.c` (hash table + compiler) and
`object.c` (string objects / interner), headers `chunk.h` and `vm.h`, are
shallowly embedded below. Machine integers are modelled as `Nat` with explicit
`% 2 ^ 32` where 32-bit wrap-around matters. C functions that can fail to
terminate (the open-addressing probe loops, the parser loops) are embedded with
explicit fuel and return `Option`; `none` models divergence and every theorem
that relies on termination carries the well-formedness hypotheses that rule it
out. Heap references (`ObjString*`) are modelled as allocation indices into an
explicit heap, so C pointer equality is equality of indices, and reads through
a pointer (`key->hash`, `key->chars`) go through an explicit heap function.
-/

namespace Clox

/-- Value model from `value.h` (not under src/): tagged union of nil, bool,
number, object reference. Numbers are IEEE doubles produced by `strtod`; no
claim below inspects a numeric value, so a number is represented by the lexeme
that `strtod` was given. Object references are heap indices. -/
inductive Value where
  | nil : Value
  | bool (b : Bool) : Value
  | number (lexeme : String) : Value
  | obj (ref : Nat) : Value
deriving DecidableEq, Repr

/-- Entry of the open-addressed table (`table.h`): an optional key pointer
(`NULL` = `none`) and a value. An Empty bucket is `⟨none, nil⟩`, a tombstone
is `⟨none, bool true⟩`, a live bucket has `key = some k`. -/
structure Entry where
  key : Option Nat
  value : Value
deriving DecidableEq, Repr

/-- The empty bucket used to initialise entry arrays. -/
def emptyEntry : Entry := ⟨none, Value.nil⟩

/-- Hash table from `table.h`: `count` (live entries plus tombstones, as the
code maintains it), `capacity`, and the entries array. -/
structure Table where
  count : Nat
  capacity : Nat
  entries : List Entry
deriving DecidableEq, Repr

/-- `initTable` from table.c: zero count and capacity, no entries array. -/
def initTable : Table := ⟨0, 0, []⟩

/-- One probe step of `findEntry` (table.c). `hashOf` models the read of
`key->hash` through the heap. `index` is the current bucket, `tomb` the first
tombstone passed (the C `tombstone` local). Fuel bounds the number of probed
buckets; `none` models the C loop running forever. -/
def findEntryGo (entries : List Entry) (capacity : Nat) (key : Nat) :
    Nat → Option Nat → Nat → Option Nat
  | _, _, 0 => none
  | index, tomb, fuel + 1 =>
    if (entries.getD index emptyEntry).key = none then
      if (entries.getD index emptyEntry).value = Value.nil then
        -- empty non-tombstone bucket: return the passed tombstone if any
        some (tomb.getD index)
      else
        -- tombstone: remember the first one and keep probing
        findEntryGo entries capacity key ((index + 1) % capacity)
          (if tomb = none then some index else tomb) fuel
    else if (entries.getD index emptyEntry).key = some key then some index
    else findEntryGo entries capacity key ((index + 1) % capacity) tomb fuel

/-- `findEntry` from table.c. Starts at `key->hash % capacity` and probes
linearly; returns the index of the bucket the C function returns a pointer to,
or `none` if the loop would not terminate within `capacity` probes (the C loop
would then cycle forever, since buckets repeat after `capacity` steps). -/
def findEntry (hashOf : Nat → Nat) (entries : List Entry) (capacity : Nat)
    (key : Nat) : Option Nat :=
  findEntryGo entries capacity key (hashOf key % capacity) none capacity

/-- `tableGet` from table.c: `some none` is a miss (C returns false),
`some (some v)` a hit, outer `none` divergence of the probe loop. -/
def tableGet (hashOf : Nat → Nat) (t : Table) (key : Nat) :
    Option (Option Value) :=
  if t.count = 0 then some none
  else
    match findEntry hashOf t.entries t.capacity key with
    | none => none
    | some idx =>
      let e := t.entries.getD idx emptyEntry
      if e.key = none then some none else some (some e.value)

/-- GROW_CAPACITY from memory.h. Modelled from the spec: memory.h is not under
src/; the spec fixes "initial capacity 8 when first resize triggers;
subsequent growth doubles". -/
def growCapacity (c : Nat) : Nat := if c < 8 then 8 else 2 * c

/-- The re-insertion loop of `adjustCapacity` (table.c): walk the old entries,
skip non-live buckets, re-insert each live entry into the fresh array via
`findEntry` and increment the recomputed count. `none` propagates probe-loop
divergence. -/
def reinsertAll (hashOf : Nat → Nat) (capacity : Nat) :
    List Entry → Nat → List Entry → Option (Nat × List Entry)
  | [], cnt, arr => some (cnt, arr)
  | e :: rest, cnt, arr =>
    match e.key with
    | none => reinsertAll hashOf capacity rest cnt arr
    | some k =>
      match findEntry hashOf arr capacity k with
      | none => none
      | some dest =>
        reinsertAll hashOf capacity rest (cnt + 1)
          (arr.set dest ⟨some k, e.value⟩)

/-- `adjustCapacity` from table.c: allocate a fresh array of Empty buckets,
reset the count to 0, re-insert every live entry of the old array, install the
new array and capacity. -/
def adjustCapacity (hashOf : Nat → Nat) (t : Table) (capacity : Nat) :
    Option Table :=
  match reinsertAll hashOf capacity t.entries 0
      (List.replicate capacity emptyEntry) with
  | none => none
  | some (cnt, arr) => some ⟨cnt, capacity, arr⟩

/-- `tableSet` from table.c. The load-factor test `count + 1 >
capacity * 0.75` is exact integer arithmetic `4 * (count + 1) > 3 * capacity`
(0.75 and the products are exactly representable doubles). The two
`table->count++` statements of the source are kept verbatim. Returns the
`isNewKey` flag and the updated table. -/
def tableSet (hashOf : Nat → Nat) (t : Table) (key : Nat) (value : Value) :
    Option (Bool × Table) :=
  let grown : Option Table :=
    if 4 * (t.count + 1) > 3 * t.capacity then
      adjustCapacity hashOf t (growCapacity t.capacity)
    else some t
  match grown with
  | none => none
  | some t1 =>
    match findEntry hashOf t1.entries t1.capacity key with
    | none => none
    | some idx =>
      let entry := t1.entries.getD idx emptyEntry
      let isNewKey := entry.key = none
      let c1 := if isNewKey ∧ entry.value = Value.nil then t1.count + 1
                else t1.count
      let c2 := if isNewKey then c1 + 1 else c1
      some (decide isNewKey,
        ⟨c2, t1.capacity, t1.entries.set idx ⟨some key, value⟩⟩)

/-- `tableDelete` from table.c: on a hit overwrite the bucket with the
tombstone `⟨NULL, Bool(true)⟩` without touching `count`. -/
def tableDelete (hashOf : Nat → Nat) (t : Table) (key : Nat) :
    Option (Bool × Table) :=
  if t.count = 0 then some (false, t)
  else
    match findEntry hashOf t.entries t.capacity key with
    | none => none
    | some idx =>
      let e := t.entries.getD idx emptyEntry
      if e.key = none then some (false, t)
      else some (true,
        ⟨t.count, t.capacity, t.entries.set idx ⟨none, Value.bool true⟩⟩)

/-- String object from `object.h` (fields of `ObjString`): byte length, the
owned byte buffer (exactly `length` bytes; the C NUL terminator is never read
by the table or interner), and the cached 32-bit FNV-1a hash. -/
structure StrObj where
  length : Nat
  chars : List Nat
  hash : Nat
deriving DecidableEq, Repr

/-- Default object for out-of-range heap reads. -/
def noStr : StrObj := ⟨0, [], 0⟩

/-- Probe loop of `tableFindString` (table.c): linear probe from
`hash % capacity`, stop with `none`-hit only at an empty non-tombstone bucket,
match by length, cached hash and `memcmp` of `length` bytes. `heap` models the
reads `entry->key->length / ->hash / ->chars`. Outer `none` is divergence of
the C loop. -/
def tableFindStringGo (heap : Nat → StrObj) (entries : List Entry)
    (capacity : Nat) (chars : List Nat) (length : Nat) (hash : Nat) :
    Nat → Nat → Option (Option Nat)
  | _, 0 => none
  | index, fuel + 1 =>
    let e := entries.getD index emptyEntry
    match e.key with
    | none =>
      if e.value = Value.nil then some none
      else tableFindStringGo heap entries capacity chars length hash
        ((index + 1) % capacity) fuel
    | some k =>
      let s := heap k
      if s.length = length ∧ s.hash = hash ∧
          s.chars.take length = chars.take length then
        some (some k)
      else tableFindStringGo heap entries capacity chars length hash
        ((index + 1) % capacity) fuel

/-- `tableFindString` from table.c: `NULL` on an empty table, otherwise probe
from `hash % capacity`. -/
def tableFindString (heap : Nat → StrObj) (t : Table) (chars : List Nat)
    (length : Nat) (hash : Nat) : Option (Option Nat) :=
  if t.count = 0 then some none
  else tableFindStringGo heap t.entries t.capacity chars length hash
    (hash % t.capacity) t.capacity

/-- `hashString` from object.c: 32-bit FNV-1a. `hash = 2166136261`, then for
each byte `hash = (hash XOR byte) * 16777619` wrapping at `2 ^ 32`; the C cast
`(uint8_t)key[i]` is `% 256`. -/
def hashString (key : List Nat) : Nat :=
  key.foldl (fun h b => ((h ^^^ (b % 256)) * 16777619) % (2 ^ 32)) 2166136261

/-- VM state relevant to the interner (`vm.h`): the heap of allocated string
objects (a reference is an index into this list; allocation order replaces the
intrusive `objects` chain) and the `strings` intern table. -/
structure VMState where
  heap : List StrObj
  strings : Table
deriving DecidableEq, Repr

/-- The read of a string field through an `ObjString*`. -/
def heapFn (vm : VMState) : Nat → StrObj := fun i => vm.heap.getD i noStr

/-- Fresh VM as produced by `initVM`: empty heap, `strings = initTable`. -/
def vmInit : VMState := ⟨[], initTable⟩

/-- `allocateString` from object.c, statement for statement: allocate the
object (`allocateObject` is in memory.c, not under src/; modelled from the
spec, which fixes that it "allocates a zeroed region", so the not yet assigned
`hash` field reads as 0), set `length` and `chars`, insert into `vm.strings`
via `tableSet` — and only afterwards store `hash` into the object. The
insertion therefore probes with the zeroed hash field, not with `hash`. -/
def allocateString (vm : VMState) (chars : List Nat) (length : Nat)
    (hash : Nat) : Option (Nat × VMState) :=
  let id := vm.heap.length
  let heap1 := vm.heap ++ [⟨length, chars, 0⟩]
  match tableSet (fun k => (heap1.getD k noStr).hash) vm.strings id
      Value.nil with
  | none => none
  | some (_, strings1) =>
    some (id, ⟨heap1.set id ⟨length, chars, hash⟩, strings1⟩)

/-- `copyString` from object.c: hash the input bytes, look the sequence up in
`vm.strings`, return the interned reference on a hit, otherwise copy the bytes
to a fresh buffer and allocate. The argument is the byte sequence
`chars[0..length)` the C function receives. -/
def copyString (vm : VMState) (chars : List Nat) : Option (Nat × VMState) :=
  let length := chars.length
  let hash := hashString chars
  match tableFindString (heapFn vm) vm.strings chars length hash with
  | none => none
  | some (some interned) => some (interned, vm)
  | some none => allocateString vm chars length hash

/-- `takeString` from object.c: same lookup, but on a hit the caller's buffer
is freed (no-op in the model) and the interned reference returned. -/
def takeString (vm : VMState) (chars : List Nat) : Option (Nat × VMState) :=
  let length := chars.length
  let hash := hashString chars
  match tableFindString (heapFn vm) vm.strings chars length hash with
  | none => none
  | some (some interned) => some (interned, vm)
  | some none => allocateString vm chars length hash

/-! Compiler. The scanner is external (scanner.h is not under src/); its
contract is a stream of tagged tokens with `TOKEN_EOF` forever after
exhaustion. Token types are the ones the rules table of table.c indexes. -/

/-- TokenType from scanner.h, modelled from its uses in the rules table. -/
inductive TokenType where
  | LEFT_PAREN | RIGHT_PAREN | LEFT_BRACE | RIGHT_BRACE
  | COMMA | DOT | MINUS | PLUS | SEMICOLON | SLASH | STAR
  | BANG | BANG_EQUAL | EQUAL | EQUAL_EQUAL
  | GREATER | GREATER_EQUAL | LESS | LESS_EQUAL
  | IDENTIFIER | STRING | NUMBER
  | AND | CLASS | ELSE | FALSE | FOR | FUN | IF | NIL | OR
  | PRINT | RETURN | SUPER | THIS | TRUE | VAR | WHILE
  | ERROR | EOF
deriving DecidableEq, Repr

/-- Token from scanner.h: type, lexeme slice (`start`/`length` collapsed to
the string they denote) and source line. -/
structure Token where
  type : TokenType
  lexeme : String
  line : Nat
deriving DecidableEq, Repr

/-- The token `scanToken` yields forever once the source is exhausted. -/
def eofToken : Token := ⟨TokenType.EOF, "", 0⟩

/-! Opcode byte values, in the declaration order of the `OpCode` enum in
chunk.h (C gives consecutive values from 0). -/

def OP_NEGATE : Nat := 0
def OP_CONSTANT : Nat := 1
def OP_NIL : Nat := 2
def OP_TRUE : Nat := 3
def OP_FALSE : Nat := 4
def OP_EQUAL : Nat := 5
def OP_GREATER : Nat := 6
def OP_LESS : Nat := 7
def OP_ADD : Nat := 8
def OP_SUBTRACT : Nat := 9
def OP_MULTIPLY : Nat := 10
def OP_DIVIDE : Nat := 11
def OP_NOT : Nat := 12
def OP_RETURN : Nat := 13

/-- Chunk from chunk.h: bytecode array, parallel line array, constant pool
(the dynamic-array capacity bookkeeping has no observable effect). -/
structure Chunk where
  code : List Nat
  lines : List Nat
  constants : List Value
deriving DecidableEq, Repr

/-- A fresh chunk as `initChunk` produces it. -/
def initChunk : Chunk := ⟨[], [], []⟩

/-- `writeChunk` from chunk.c. Modelled from the spec: chunk.c is not under
src/; the spec fixes that `write(byte, line)` appends to both `code` and
`lines`. -/
def writeChunk (ch : Chunk) (byte : Nat) (line : Nat) : Chunk :=
  ⟨ch.code ++ [byte], ch.lines ++ [line], ch.constants⟩

/-- `addConstant` from chunk.c. Modelled from the spec: appends the value to
the constant pool and returns its index. -/
def addConstant (ch : Chunk) (value : Value) : Nat × Chunk :=
  (ch.constants.length, ⟨ch.code, ch.lines, ch.constants ++ [value]⟩)

/-- Precedence levels (the `Precedence` enum of table.c, consecutive values
from 0). -/
def PREC_NONE : Nat := 0
def PREC_ASSIGNMENT : Nat := 1
def PREC_OR : Nat := 2
def PREC_AND : Nat := 3
def PREC_EQUALITY : Nat := 4
def PREC_COMPARISON : Nat := 5
def PREC_TERM : Nat := 6
def PREC_FACTOR : Nat := 7
def PREC_UNARY : Nat := 8
def PREC_CALL : Nat := 9
def PREC_PRIMARY : Nat := 10

/-- Tags for the prefix parse functions the rules table stores pointers to. -/
inductive PrefixKind where
  | grouping | number | string | literal | unary
deriving DecidableEq, Repr

/-- Tags for the infix parse functions (only `binary` occurs). -/
inductive InfixKind where
  | binary
deriving DecidableEq, Repr

/-- ParseRule from table.c: optional prefix rule, optional infix rule,
precedence. -/
structure ParseRule where
  prefixRule : Option PrefixKind
  infixRule : Option InfixKind
  precedence : Nat
deriving DecidableEq, Repr

/-- The `rules` table of table.c, row for row. -/
def getRule (t : TokenType) : ParseRule :=
  match t with
  | .LEFT_PAREN => ⟨some .grouping, none, PREC_NONE⟩
  | .RIGHT_PAREN => ⟨none, none, PREC_NONE⟩
  | .LEFT_BRACE => ⟨none, none, PREC_NONE⟩
  | .RIGHT_BRACE => ⟨none, none, PREC_NONE⟩
  | .COMMA => ⟨none, none, PREC_NONE⟩
  | .DOT => ⟨none, none, PREC_NONE⟩
  | .MINUS => ⟨some .unary, some .binary, PREC_TERM⟩
  | .PLUS => ⟨none, some .binary, PREC_TERM⟩
  | .SEMICOLON => ⟨none, none, PREC_NONE⟩
  | .SLASH => ⟨none, some .binary, PREC_FACTOR⟩
  | .STAR => ⟨none, some .binary, PREC_FACTOR⟩
  | .BANG => ⟨some .unary, none, PREC_NONE⟩
  | .BANG_EQUAL => ⟨none, some .binary, PREC_EQUALITY⟩
  | .EQUAL => ⟨none, none, PREC_NONE⟩
  | .EQUAL_EQUAL => ⟨none, some .binary, PREC_EQUALITY⟩
  | .GREATER => ⟨none, some .binary, PREC_COMPARISON⟩
  | .GREATER_EQUAL => ⟨none, some .binary, PREC_COMPARISON⟩
  | .LESS => ⟨none, some .binary, PREC_COMPARISON⟩
  | .LESS_EQUAL => ⟨none, some .binary, PREC_COMPARISON⟩
  | .IDENTIFIER => ⟨none, none, PREC_NONE⟩
  | .STRING => ⟨some .string, none, PREC_NONE⟩
  | .NUMBER => ⟨some .number, none, PREC_NONE⟩
  | .AND => ⟨none, none, PREC_NONE⟩
  | .CLASS => ⟨none, none, PREC_NONE⟩
  | .ELSE => ⟨none, none, PREC_NONE⟩
  | .FALSE => ⟨some .literal, none, PREC_NONE⟩
  | .FOR => ⟨none, none, PREC_NONE⟩
  | .FUN => ⟨none, none, PREC_NONE⟩
  | .IF => ⟨none, none, PREC_NONE⟩
  | .NIL => ⟨some .literal, none, PREC_NONE⟩
  | .OR => ⟨none, none, PREC_NONE⟩
  | .PRINT => ⟨none, none, PREC_NONE⟩
  | .RETURN => ⟨none, none, PREC_NONE⟩
  | .SUPER => ⟨none, none, PREC_NONE⟩
  | .THIS => ⟨none, none, PREC_NONE⟩
  | .TRUE => ⟨some .literal, none, PREC_NONE⟩
  | .VAR => ⟨none, none, PREC_NONE⟩
  | .WHILE => ⟨none, none, PREC_NONE⟩
  | .ERROR => ⟨none, none, PREC_NONE⟩
  | .EOF => ⟨none, none, PREC_NONE⟩

/-- Compiler state: the global `parser` struct of table.c, the remaining
scanner stream, the chunk being compiled (`compilingChunk`), the messages
written to stderr, and the VM state the interner mutates. -/
structure CompState where
  stream : List Token
  current : Token
  previous : Token
  hadError : Bool
  panicMode : Bool
  chunk : Chunk
  errors : List String
  vm : VMState
deriving DecidableEq, Repr

/-- The text `errorAt` writes to stderr for one error. -/
def formatError (tok : Token) (message : String) : String :=
  "[line " ++ toString tok.line ++ "] Error" ++
    (match tok.type with
     | .EOF => " at end"
     | .ERROR => ""
     | _ => " at \u0027" ++ tok.lexeme ++ "\u0027") ++
    ": " ++ message

/-- `errorAt` from table.c: in panic mode do nothing; otherwise enter panic
mode, report, and set `hadError`. -/
def errorAt (tok : Token) (message : String) (st : CompState) : CompState :=
  if st.panicMode then st
  else { st with panicMode := true, hadError := true,
                 errors := st.errors ++ [formatError tok message] }

/-- `error` from table.c: report at the previous token. -/
def compError (message : String) (st : CompState) : CompState :=
  errorAt st.previous message st

/-- `errorAtCurrent` from table.c. -/
def errorAtCurrent (message : String) (st : CompState) : CompState :=
  errorAt st.current message st

/-- The scan-and-skip-errors loop inside `advance`: pull tokens from the
scanner, report `TOKEN_ERROR` tokens (their lexeme is the message) and keep
scanning until a non-error token arrives; an drained stream yields EOF. -/
def advanceGo : List Token → CompState → CompState
  | [], st => { st with current := eofToken, stream := [] }
  | t :: rest, st =>
    if t.type = TokenType.ERROR then
      advanceGo rest
        (errorAtCurrent t.lexeme { st with current := t, stream := rest })
    else { st with current := t, stream := rest }

/-- `advance` from table.c: save `current` into `previous`, then scan. -/
def advance (st : CompState) : CompState :=
  advanceGo st.stream { st with previous := st.current }

/-- `consume` from table.c. -/
def consume (type : TokenType) (message : String) (st : CompState) :
    CompState :=
  if st.current.type = type then advance st else errorAtCurrent message st

/-- `check` from table.c. -/
def check (type : TokenType) (st : CompState) : Bool :=
  st.current.type = type

/-- `emitByte` from table.c: append to the chunk at the previous token's
line. -/
def emitByte (byte : Nat) (st : CompState) : CompState :=
  { st with chunk := writeChunk st.chunk byte st.previous.line }

/-- `emitBytes` from table.c. -/
def emitBytes (b1 b2 : Nat) (st : CompState) : CompState :=
  emitByte b2 (emitByte b1 st)

/-- `emitReturn` from table.c. -/
def emitReturn (st : CompState) : CompState := emitByte OP_RETURN st

/-- `makeConstant` from table.c: add the value to the pool; an index above
`UINT8_MAX = 255` raises "Too many constants in one chunk." and yields operand
byte 0. -/
def makeConstant (value : Value) (st : CompState) : Nat × CompState :=
  let (constant, ch) := addConstant st.chunk value
  let st := { st with chunk := ch }
  if 255 < constant then (0, compError "Too many constants in one chunk." st)
  else (constant, st)

/-- `emitConstant` from table.c. -/
def emitConstant (value : Value) (st : CompState) : CompState :=
  let (b, st1) := makeConstant value st
  emitBytes OP_CONSTANT b st1

/-- `endCompiler` from table.c (the debug disassembly is compiled out). -/
def endCompiler (st : CompState) : CompState := emitReturn st

/-- `strtod` is libc. Modelled from the spec: number literals "parse via
standard double parser"; no claim below inspects the numeric value, so the
parsed double is represented by the lexeme it came from. -/
def strtodModel (s : String) : String := s

/-- `number` from table.c: parse `previous`'s lexeme, emit it as a
constant. -/
def numberRule (st : CompState) : CompState :=
  emitConstant (Value.number (strtodModel st.previous.lexeme)) st

/-- `literal` from table.c. -/
def literalRule (st : CompState) : CompState :=
  match st.previous.type with
  | .FALSE => emitByte OP_FALSE st
  | .NIL => emitByte OP_NIL st
  | .TRUE => emitByte OP_TRUE st
  | _ => st

/-- Byte sequence of a string token's lexeme with the surrounding quotes
stripped (the `+ 1` / `- 2` of `string()` in table.c). -/
def stripQuotes (s : String) : List Nat :=
  ((s.toList.drop 1).dropLast).map Char.toNat

/-- `string` from table.c: intern the quoted bytes via `copyString`, emit the
object as a constant. `none` propagates interner divergence. -/
def stringRule (st : CompState) : Option CompState :=
  match copyString st.vm (stripQuotes st.previous.lexeme) with
  | none => none
  | some (ref, vm1) => some (emitConstant (Value.obj ref) { st with vm := vm1 })

/-! Pratt parser core, `parsePrecedence` of table.c, mutually recursive with
the prefix/infix rules that re-enter it (`grouping`, `unary`, `binary`) and
with its own infix loop. Every nested call runs on the predecessor fuel; with
fuel at least the recursion depth of the C functions this is exact. `none`
models a crash or hang (fuel exhausted, a NULL infix pointer called, or
interner divergence). -/
mutual

/-- `grouping` from table.c: `expression()` then require a right paren. -/
def grouping : Nat → CompState → Option CompState
  | 0, _ => none
  | fuel + 1, st =>
    match parsePrecedence fuel PREC_ASSIGNMENT st with
    | none => none
    | some st1 =>
      some (consume TokenType.RIGHT_PAREN
        "Expect \u0027)\u0027 after expression." st1)

/-- `unary` from table.c: save the operator, compile the operand at
`PREC_UNARY`, then emit the operator instruction. -/
def unary : Nat → CompState → Option CompState
  | 0, _ => none
  | fuel + 1, st =>
    let operatorType := st.previous.type
    match parsePrecedence fuel PREC_UNARY st with
    | none => none
    | some st1 =>
      match operatorType with
      | .BANG => some (emitByte OP_NOT st1)
      | .MINUS => some (emitByte OP_NEGATE st1)
      | _ => some st1

/-- `binary` from table.c: compile the right operand one precedence level
higher, then emit the operator's opcode sequence. -/
def binary : Nat → CompState → Option CompState
  | 0, _ => none
  | fuel + 1, st =>
    let operatorType := st.previous.type
    let rule := getRule operatorType
    match parsePrecedence fuel (rule.precedence + 1) st with
    | none => none
    | some st1 =>
      match operatorType with
      | .BANG_EQUAL => some (emitBytes OP_EQUAL OP_NOT st1)
      | .EQUAL_EQUAL => some (emitByte OP_EQUAL st1)
      | .GREATER => some (emitByte OP_GREATER st1)
      | .GREATER_EQUAL => some (emitBytes OP_LESS OP_NOT st1)
      | .LESS => some (emitByte OP_LESS st1)
      | .LESS_EQUAL => some (emitBytes OP_GREATER OP_NOT st1)
      | .PLUS => some (emitByte OP_ADD st1)
      | .MINUS => some (emitByte OP_SUBTRACT st1)
      | .STAR => some (emitByte OP_MULTIPLY st1)
      | .SLASH => some (emitByte OP_DIVIDE st1)
      | _ => some st1

/-- `parsePrecedence` from table.c: advance, dispatch the prefix rule of the
token just consumed ("Expect expression." if it has none), then run the infix
loop. -/
def parsePrecedence : Nat → Nat → CompState → Option CompState
  | 0, _, _ => none
  | fuel + 1, precedence, st =>
    let st1 := advance st
    match (getRule st1.previous.type).prefixRule with
    | none => some (compError "Expect expression." st1)
    | some pk =>
      let parsed : Option CompState :=
        match pk with
        | .grouping => grouping fuel st1
        | .number => some (numberRule st1)
        | .string => stringRule st1
        | .literal => some (literalRule st1)
        | .unary => unary fuel st1
      match parsed with
      | none => none
      | some st2 => infixLoop fuel precedence st2

/-- The `while (precedence <= getRule(parser.current.type)->precedence)` loop
of `parsePrecedence`: advance and invoke the infix rule of the consumed
token. A NULL infix pointer would be called in C; that is `none` here (it is
unreachable for the precedences the source passes). -/
def infixLoop : Nat → Nat → CompState → Option CompState
  | 0, _, _ => none
  | fuel + 1, precedence, st =>
    if precedence ≤ (getRule st.current.type).precedence then
      let st1 := advance st
      match (getRule st1.previous.type).infixRule with
      | none => none
      | some .binary =>
        match binary fuel st1 with
        | none => none
        | some st2 => infixLoop fuel precedence st2
    else some st

end

/-- `expression` from table.c: parse at the lowest non-NONE precedence. -/
def expression (fuel : Nat) (st : CompState) : Option CompState :=
  parsePrecedence fuel PREC_ASSIGNMENT st

/-- `printStatement` from table.c: compile the expression, consume the
semicolon ("Expect \u0027;\u0027 after value." if absent), then emit `OP_PRINT`.
`OP_PRINT` has no byte value in chunk.h's enum (the VM stage is ahead of this
chunk of the enum); the emission order is what the claims are about, so the
instruction is modelled as the next free byte value 14. -/
def OP_PRINT : Nat := 14

/-- `printStatement` body. -/
def printStatement (fuel : Nat) (st : CompState) : Option CompState :=
  match expression fuel st with
  | none => none
  | some st1 =>
    some (emitByte OP_PRINT
      (consume TokenType.SEMICOLON "Expect \u0027;\u0027 after value." st1))

/-- `statement` from table.c: `if (match(TOKEN_PRINT)) printStatement();` —
and nothing else; a non-`print` token is not consumed. -/
def statement (fuel : Nat) (st : CompState) : Option CompState :=
  if check TokenType.PRINT st then printStatement fuel (advance st)
  else some st

/-- `declaration` from table.c. -/
def declaration (fuel : Nat) (st : CompState) : Option CompState :=
  statement fuel st

/-- The `while (!match(TOKEN_EOF)) declaration();` loop of `compile`. Fuel
bounds the loop iterations; `none` models the loop running forever. -/
def compileLoop : Nat → CompState → Option CompState
  | 0, _ => none
  | fuel + 1, st =>
    if check TokenType.EOF st then some (advance st)
    else
      match declaration fuel st with
      | none => none
      | some st1 => compileLoop fuel st1

/-- `compile` from table.c: reset the parser flags over a fresh chunk, prime
the pump with one `advance`, run the declaration loop, emit the final
`OP_RETURN`, return `!parser.hadError` (plus the final state). The token list
is the external scanner's output stream. -/
def compile (fuel : Nat) (tokens : List Token) (vm : VMState) :
    Option (Bool × CompState) :=
  let st0 : CompState :=
    { stream := tokens, current := eofToken, previous := eofToken,
      hadError := false, panicMode := false, chunk := initChunk,
      errors := [], vm := vm }
  let st1 := advance st0
  match compileLoop fuel st1 with
  | none => none
  | some st2 =>
    let st3 := endCompiler st2
    some (!st3.hadError, st3)

/-! Derived quantities and concrete states used by the theorem statements. -/

/-- Number of live buckets of an entries array. -/
def liveCount (entries : List Entry) : Nat :=
  entries.countP (fun e => e.key.isSome)

/-- Number of tombstone buckets of an entries array. -/
def tombCount (entries : List Entry) : Nat :=
  entries.countP (fun e => decide (e.key = none ∧ e.value ≠ Value.nil))

/-- Number of non-Empty buckets (live plus tombstones): the buckets that do
not stop a probe sequence. -/
def usedCount (entries : List Entry) : Nat :=
  entries.countP (fun e => decide (¬(e.key = none ∧ e.value = Value.nil)))

/-- Token with a given type and lexeme on source line 1 (input builder for
the external scanner's stream). -/
def tok1 (t : TokenType) (s : String) : Token := ⟨t, s, 1⟩

/-- Scanner stream for `print <expression tokens> ;` followed by EOF. -/
def printExprToks (mid : List Token) : List Token :=
  tok1 TokenType.PRINT "print" ::
    (mid ++ [tok1 TokenType.SEMICOLON ";", tok1 TokenType.EOF ""])

/-- Bytecode produced by compiling a token stream from a fresh VM. Fuel 100
exceeds the recursion depth of every stream used below. -/
def codeOf (tokens : List Token) : Option (List Nat) :=
  (compile 100 tokens vmInit).map (fun p => p.2.chunk.code)

/-- Parser state at the entry of `printStatement`: `print` was just consumed,
the expression `1` and the semicolon are pending. -/
def c7state : CompState :=
  { stream := [tok1 TokenType.SEMICOLON ";", tok1 TokenType.EOF ""],
    current := tok1 TokenType.NUMBER "1",
    previous := tok1 TokenType.PRINT "print",
    hadError := false, panicMode := false, chunk := initChunk,
    errors := [], vm := vmInit }

/-- The state `printStatement` produces from `c7state`. -/
def c7result : CompState := (printStatement 10 c7state).getD c7state

/-- Compiler state with an empty constant pool. -/
def c8stateSmall : CompState :=
  { stream := [], current := eofToken, previous := eofToken,
    hadError := false, panicMode := false, chunk := initChunk,
    errors := [], vm := vmInit }

/-- Compiler state whose constant pool already holds 256 values, so the next
`addConstant` returns index 256 > 255. -/
def c8stateBig : CompState :=
  { stream := [], current := eofToken, previous := eofToken,
    hadError := false, panicMode := false,
    chunk := ⟨[], [], List.replicate 256 Value.nil⟩,
    errors := [], vm := vmInit }

/-- An entries array without tombstones: every keyless bucket is fully
Empty. -/
def NoTombs (entries : List Entry) : Prop :=
  ∀ e ∈ entries, e.key = none → e.value = Value.nil

/-- Concrete table for the resize witness: capacity 2 holding one live pair
and one tombstone. -/
def resizeWitnessTable : Table :=
  ⟨2, 2, [⟨some 5, Value.bool false⟩, ⟨none, Value.bool true⟩]⟩

/-- Parser state `compile` reaches after its priming `advance` on the stream
`1 ; <EOF>`: the statement-position token is `TOKEN_NUMBER`, neither `print`
nor EOF. -/
def c9state : CompState :=
  { stream := [tok1 TokenType.SEMICOLON ";", tok1 TokenType.EOF ""],
    current := tok1 TokenType.NUMBER "1", previous := eofToken,
    hadError := false, panicMode := false, chunk := initChunk,
    errors := [], vm := vmInit }

end Clox

namespace Clox

/-! Theorems. One theorem (plus witness or counterexample where required) per
claim of the specification review. -/

/-- C1: the claim says `copyString(a)` and `copyString(b)` return the same
reference iff `a == b` bytewise. The code violates the forward direction:
`allocateString` inserts the new string into `vm.strings` before assigning
its `hash` field, so the intern-table bucket is chosen by the zeroed hash
while the later `tableFindString` probes from the true FNV-1a hash. Two calls
of `copyString` with the identical byte sequence `"a"` (byte 97) on a fresh VM
return the distinct references 0 and 1. -/
theorem copyString_equal_bytes_fresh_reference :
    ((copyString vmInit [97]).bind (fun p =>
        (copyString p.2 [97]).map (fun q => (p.1, q.1)))) = some (0, 1) ∧
    (0 : Nat) ≠ 1 := by decide

/-- C2: the claim says every interned string is found again by
`tableFindString` under its own `chars`/`length`/`hash`, and that `vm.strings`
holds exactly one String per byte sequence. Both fail for the same reason as
C1: after `copyString` of `"a"` on a fresh VM, looking the string up through
its own fields misses (the string sits in the bucket chosen by the zeroed
hash), and a second `copyString` leaves two live table keys whose byte
sequences are both `[97]`. -/
theorem interned_string_not_found :
    ((copyString vmInit [97]).bind (fun p =>
        tableFindString (heapFn p.2) p.2.strings (heapFn p.2 p.1).chars
          (heapFn p.2 p.1).length (heapFn p.2 p.1).hash)) = some none ∧
    ((copyString vmInit [97]).bind (fun p => (copyString p.2 [97]).map
        (fun q => (liveCount q.2.strings.entries,
          (heapFn q.2 0).chars, (heapFn q.2 1).chars)))) =
      some (2, [97], [97]) := by decide

/-- C3: the claim says `tableSet` increments `count` exactly once for a new
key in a never-tombstoned Empty bucket and not at all when reusing a
tombstone. The code does neither: inserting the first key into a fresh table
leaves `count = 2` for one live entry and no tombstone (both `table->count++`
statements fire), and re-inserting a key over its tombstone leaves `count = 3`
(the unconditional `if (isNewKey) table->count++;` fires on tombstone
reuse). -/
theorem tableSet_count_double_increment :
    ((tableSet (fun _ => 0) initTable 0 Value.nil).map
        (fun p => (p.1, p.2.count, liveCount p.2.entries,
          tombCount p.2.entries))) = some (true, 2, 1, 0) ∧
    ((tableSet (fun _ => 0) initTable 0 Value.nil).bind (fun p =>
      (tableDelete (fun _ => 0) p.2 0).bind (fun q =>
        (tableSet (fun _ => 0) q.2 0 Value.nil).map (fun r =>
          (r.2.count, liveCount r.2.entries, tombCount r.2.entries))))) =
      some (3, 1, 0) := by decide

/-- C10: on any table with `count = 0` — in particular the fresh table with
capacity 0 and no entries array — `tableGet` misses, `tableDelete` returns
false leaving the table unchanged, and `tableFindString` returns NULL; none
of them reaches the probe loop, so `hash % capacity` is never evaluated with
capacity 0 (the results are `some _`, never the divergence marker). -/
theorem zero_count_guards (hashOf : Nat → Nat) (heap : Nat → StrObj)
    (t : Table) (key : Nat) (chars : List Nat) (length hash : Nat)
    (h : t.count = 0) :
    tableGet hashOf t key = some none ∧
    tableDelete hashOf t key = some (false, t) ∧
    tableFindString heap t chars length hash = some none := by
  refine ⟨?_, ?_, ?_⟩ <;>
    simp [tableGet, tableDelete, tableFindString, h]

/-- Witness for C10 at the freshly initialised table. -/
theorem zero_count_guards_witness :
    initTable.count = 0 ∧
    (tableGet (fun _ => 0) initTable 0 = some none ∧
     tableDelete (fun _ => 0) initTable 0 = some (false, initTable) ∧
     tableFindString (fun _ => noStr) initTable [97] 1 5 = some none) :=
  ⟨rfl, zero_count_guards (fun _ => 0) (fun _ => noStr) initTable 0 [97] 1 5
    rfl⟩

/-- C6: every binary operator compiles its right operand at the table
precedence plus one and then emits its opcode sequence. Concretely over the
full operator table: `print 1 ⊕ 2 ;` compiles to
`CONSTANT 0, CONSTANT 1, <emission ⊕>, PRINT, RETURN` with the claimed
emission for each of the ten operators; `1+2+3` compiles identically to
`(1+2)+3` (left associativity of a same-precedence chain) and differently
from `1+(2+3)` in operand order; and `1+2*3` binds `*` tighter. -/
theorem binary_emission_and_left_assoc :
    codeOf (printExprToks [tok1 .NUMBER "1", tok1 .PLUS "+",
        tok1 .NUMBER "2", tok1 .PLUS "+", tok1 .NUMBER "3"]) =
      some [OP_CONSTANT, 0, OP_CONSTANT, 1, OP_ADD, OP_CONSTANT, 2, OP_ADD,
        OP_PRINT, OP_RETURN] ∧
    codeOf (printExprToks [tok1 .LEFT_PAREN "(", tok1 .NUMBER "1",
        tok1 .PLUS "+", tok1 .NUMBER "2", tok1 .RIGHT_PAREN ")",
        tok1 .PLUS "+", tok1 .NUMBER "3"]) =
      some [OP_CONSTANT, 0, OP_CONSTANT, 1, OP_ADD, OP_CONSTANT, 2, OP_ADD,
        OP_PRINT, OP_RETURN] ∧
    codeOf (printExprToks [tok1 .NUMBER "1", tok1 .PLUS "+",
        tok1 .LEFT_PAREN "(", tok1 .NUMBER "2", tok1 .PLUS "+",
        tok1 .NUMBER "3", tok1 .RIGHT_PAREN ")"]) =
      some [OP_CONSTANT, 0, OP_CONSTANT, 1, OP_CONSTANT, 2, OP_ADD, OP_ADD,
        OP_PRINT, OP_RETURN] ∧
    codeOf (printExprToks [tok1 .NUMBER "1", tok1 .PLUS "+",
        tok1 .NUMBER "2", tok1 .STAR "*", tok1 .NUMBER "3"]) =
      some [OP_CONSTANT, 0, OP_CONSTANT, 1, OP_CONSTANT, 2, OP_MULTIPLY,
        OP_ADD, OP_PRINT, OP_RETURN] ∧
    codeOf (printExprToks [tok1 .NUMBER "1", tok1 .PLUS "+",
        tok1 .NUMBER "2"]) =
      some [OP_CONSTANT, 0, OP_CONSTANT, 1, OP_ADD, OP_PRINT, OP_RETURN] ∧
    codeOf (printExprToks [tok1 .NUMBER "1", tok1 .MINUS "-",
        tok1 .NUMBER "2"]) =
      some [OP_CONSTANT, 0, OP_CONSTANT, 1, OP_SUBTRACT, OP_PRINT,
        OP_RETURN] ∧
    codeOf (printExprToks [tok1 .NUMBER "1", tok1 .STAR "*",
        tok1 .NUMBER "2"]) =
      some [OP_CONSTANT, 0, OP_CONSTANT, 1, OP_MULTIPLY, OP_PRINT,
        OP_RETURN] ∧
    codeOf (printExprToks [tok1 .NUMBER "1", tok1 .SLASH "/",
        tok1 .NUMBER "2"]) =
      some [OP_CONSTANT, 0, OP_CONSTANT, 1, OP_DIVIDE, OP_PRINT,
        OP_RETURN] ∧
    codeOf (printExprToks [tok1 .NUMBER "1", tok1 .EQUAL_EQUAL "==",
        tok1 .NUMBER "2"]) =
      some [OP_CONSTANT, 0, OP_CONSTANT, 1, OP_EQUAL, OP_PRINT,
        OP_RETURN] ∧
    codeOf (printExprToks [tok1 .NUMBER "1", tok1 .BANG_EQUAL "!=",
        tok1 .NUMBER "2"]) =
      some [OP_CONSTANT, 0, OP_CONSTANT, 1, OP_EQUAL, OP_NOT, OP_PRINT,
        OP_RETURN] ∧
    codeOf (printExprToks [tok1 .NUMBER "1", tok1 .LESS "<",
        tok1 .NUMBER "2"]) =
      some [OP_CONSTANT, 0, OP_CONSTANT, 1, OP_LESS, OP_PRINT,
        OP_RETURN] ∧
    codeOf (printExprToks [tok1 .NUMBER "1", tok1 .GREATER ">",
        tok1 .NUMBER "2"]) =
      some [OP_CONSTANT, 0, OP_CONSTANT, 1, OP_GREATER, OP_PRINT,
        OP_RETURN] ∧
    codeOf (printExprToks [tok1 .NUMBER "1", tok1 .LESS_EQUAL "<=",
        tok1 .NUMBER "2"]) =
      some [OP_CONSTANT, 0, OP_CONSTANT, 1, OP_GREATER, OP_NOT, OP_PRINT,
        OP_RETURN] ∧
    codeOf (printExprToks [tok1 .NUMBER "1", tok1 .GREATER_EQUAL ">=",
        tok1 .NUMBER "2"]) =
      some [OP_CONSTANT, 0, OP_CONSTANT, 1, OP_LESS, OP_NOT, OP_PRINT,
        OP_RETURN] := by decide

/-- C7: `printStatement` compiles the expression, consumes the semicolon
(raising "Expect ';' after value." when it is absent) and only then emits
`OP_PRINT`. First conjunct: for every state on which `printStatement`
returns, `OP_PRINT` is the last byte of the chunk. Then concretely:
`print 1 ;` compiles to `CONSTANT 0, PRINT, RETURN` with no error, and the
stream `print 1 <EOF>` without semicolon reports exactly
"[line 1] Error at end: Expect ';' after value.", makes `compile` return
false, and still places `OP_PRINT` after the expression bytes. -/
theorem printStatement_semicolon_before_print :
    (∀ (fuel : Nat) (st st1 : CompState), printStatement fuel st = some st1 →
      st1.chunk.code.getLast? = some OP_PRINT) ∧
    ((compile 100 (printExprToks [tok1 .NUMBER "1"]) vmInit).map
        (fun p => (p.1, p.2.chunk.code, p.2.errors))) =
      some (true, [OP_CONSTANT, 0, OP_PRINT, OP_RETURN], []) ∧
    ((compile 100 [tok1 .PRINT "print", tok1 .NUMBER "1", tok1 .EOF ""]
        vmInit).map (fun p => (p.1, p.2.chunk.code, p.2.errors))) =
      some (false, [OP_CONSTANT, 0, OP_PRINT, OP_RETURN],
        ["[line 1] Error at end: Expect ';' after value."]) := by
  refine ⟨?_, by decide, by decide⟩
  intro fuel st st1 h
  unfold printStatement at h
  cases hexp : expression fuel st with
  | none => rw [hexp] at h; exact absurd h (by simp)
  | some s =>
    rw [hexp] at h
    simp only [Option.some.injEq] at h
    subst h
    simp [emitByte, writeChunk]

/-- Witness for the universal conjunct of C7 at a concrete parser state. -/
theorem printStatement_semicolon_before_print_witness :
    printStatement 10 c7state = some c7result ∧
    c7result.chunk.code.getLast? = some OP_PRINT :=
  ⟨rfl, printStatement_semicolon_before_print.1 10 c7state c7result rfl⟩

/-- C8: whenever `addConstant` hands back an index above 255, `makeConstant`
raises "Too many constants in one chunk." (setting `hadError`, so `compile`
returns false) and the emitted operand byte is 0; for an index at or below
255 the constant is emitted as the one-byte operand of `OP_CONSTANT` with no
error. The index `addConstant` returns is the pool length before the
append. -/
theorem makeConstant_guard :
    ∀ (st : CompState) (v : Value),
      (st.chunk.constants.length ≤ 255 →
        (emitConstant v st).chunk.code =
            st.chunk.code ++ [OP_CONSTANT, st.chunk.constants.length] ∧
        (emitConstant v st).chunk.constants = st.chunk.constants ++ [v] ∧
        (emitConstant v st).hadError = st.hadError ∧
        (emitConstant v st).errors = st.errors) ∧
      (255 < st.chunk.constants.length → st.panicMode = false →
        (emitConstant v st).hadError = true ∧
        (emitConstant v st).errors = st.errors ++
            [formatError st.previous "Too many constants in one chunk."] ∧
        (emitConstant v st).chunk.code =
            st.chunk.code ++ [OP_CONSTANT, 0]) := by
  intro st v
  constructor
  · intro h
    simp [emitConstant, makeConstant, addConstant, emitBytes, emitByte,
      writeChunk, Nat.not_lt.2 h, List.append_assoc]
  · intro h hp
    simp [emitConstant, makeConstant, addConstant, emitBytes, emitByte,
      writeChunk, compError, errorAt, h, hp, List.append_assoc]

/-- Witness for C8: both guard branches at concrete states (empty pool and a
pool of 256 values). -/
theorem makeConstant_guard_witness :
    ((emitConstant Value.nil c8stateSmall).chunk.code =
        c8stateSmall.chunk.code ++
          [OP_CONSTANT, c8stateSmall.chunk.constants.length] ∧
     (emitConstant Value.nil c8stateSmall).chunk.constants =
        c8stateSmall.chunk.constants ++ [Value.nil] ∧
     (emitConstant Value.nil c8stateSmall).hadError =
        c8stateSmall.hadError ∧
     (emitConstant Value.nil c8stateSmall).errors = c8stateSmall.errors) ∧
    ((emitConstant Value.nil c8stateBig).hadError = true ∧
     (emitConstant Value.nil c8stateBig).errors = c8stateBig.errors ++
        [formatError c8stateBig.previous "Too many constants in one chunk."] ∧
     (emitConstant Value.nil c8stateBig).chunk.code =
        c8stateBig.chunk.code ++ [OP_CONSTANT, 0]) :=
  ⟨(makeConstant_guard c8stateSmall Value.nil).1 (by decide),
   (makeConstant_guard c8stateBig Value.nil).2
     (by rw [show c8stateBig.chunk.constants = List.replicate 256 Value.nil
               from rfl,
             List.length_replicate]
         omega) rfl⟩

/-- C9: the claim says `compile` terminates for every finite token stream and
that the top-level loop still makes progress when the statement-position
token is neither `print` nor EOF. The code refutes this: at the state reached
for the stream `1 ; <EOF>` (current token `TOKEN_NUMBER`), `declaration`
returns the state unchanged for every fuel, the EOF exit test is false, and
both the declaration loop and `compile` itself diverge (return `none`) for
every fuel bound. -/
theorem compile_nonterminating_on_non_print :
    (∀ fuel : Nat, declaration fuel c9state = some c9state) ∧
    check TokenType.EOF c9state = false ∧
    (∀ fuel : Nat, compileLoop fuel c9state = none) ∧
    (∀ fuel : Nat,
      compile fuel [tok1 .NUMBER "1", tok1 .SEMICOLON ";", tok1 .EOF ""]
        vmInit = none) := by
  have hdecl : ∀ fuel : Nat, declaration fuel c9state = some c9state :=
    fun _ => rfl
  have hloop : ∀ fuel : Nat, compileLoop fuel c9state = none := by
    intro fuel
    induction fuel with
    | zero => rfl
    | succ n ih =>
      rw [compileLoop, hdecl n]
      simpa [check, c9state, tok1] using ih
  refine ⟨hdecl, rfl, hloop, ?_⟩
  intro fuel
  show (match compileLoop fuel c9state with
        | none => none
        | some st2 => some (!(endCompiler st2).hadError, endCompiler st2)) =
      (none : Option (Bool × CompState))
  rw [hloop fuel]

end Clox

namespace Clox

theorem entry_eq_empty {e : Entry} :
    e = emptyEntry ↔ e.key = none ∧ e.value = Value.nil := by
  cases e; simp [emptyEntry]

theorem getD_set_self {l : List Entry} {i : Nat} (h : i < l.length)
    (x d : Entry) : (l.set i x).getD i d = x := by
  simp [List.getD_eq_getElem?_getD, List.getElem?_set_self, h]

theorem getD_set_ne {l : List Entry} {i j : Nat} (h : j ≠ i)
    (x d : Entry) : (l.set i x).getD j d = l.getD j d := by
  simp [List.getD_eq_getElem?_getD, List.getElem?_set_ne (Ne.symm h)]

theorem getD_mem {l : List Entry} {i : Nat} (h : i < l.length) :
    l.getD i emptyEntry ∈ l := by
  rw [List.getD_eq_getElem?_getD, List.getElem?_eq_getElem h]
  exact List.getElem_mem h

theorem mem_set_self {l : List Entry} {i : Nat} (h : i < l.length)
    (x : Entry) : x ∈ l.set i x := by
  have hg : (l.set i x).getD i emptyEntry = x := getD_set_self h x emptyEntry
  nth_rewrite 2 [← hg]
  exact getD_mem (by simpa using h)

theorem mem_set_of_mem_ne {l : List Entry} {i : Nat} {x y : Entry}
    (hy : y ∈ l) (hne : y ≠ l.getD i emptyEntry) : y ∈ l.set i x := by
  obtain ⟨j, hj, hjy⟩ := List.mem_iff_getElem.1 hy
  have hgd : l.getD j emptyEntry = y := by
    rw [List.getD_eq_getElem?_getD, List.getElem?_eq_getElem hj, hjy]
    rfl
  have hji : j ≠ i := fun he => hne (by rw [← hgd, he])
  have hset : (l.set i x).getD j emptyEntry = y := by
    rw [getD_set_ne hji]
    exact hgd
  rw [← hset]
  exact getD_mem (by simpa using hj)

theorem findEntryGo_lt_cap {entries : List Entry} {capacity key : Nat}
    (hcap : 0 < capacity) :
    ∀ (fuel idx : Nat) (tomb : Option Nat) (r : Nat), idx < capacity →
      (∀ q, tomb = some q → q < capacity) →
      findEntryGo entries capacity key idx tomb fuel = some r →
      r < capacity := by
  intro fuel
  induction fuel with
  | zero => intro idx tomb r _ _ h; simp [findEntryGo] at h
  | succ n ih =>
    intro idx tomb r hidx htomb h
    rw [findEntryGo] at h
    split at h
    · split at h
      · cases tomb with
        | none => simp at h; omega
        | some q => simp at h; exact h ▸ htomb q rfl
      · exact ih _ _ r (Nat.mod_lt _ hcap)
          (by intro q hq; split at hq
              · simp at hq; omega
              · exact htomb q hq) h
    · split at h
      · simp at h; omega
      · exact ih _ _ r (Nat.mod_lt _ hcap) htomb h

theorem findEntryGo_isSome {entries : List Entry} {capacity key : Nat}
    (hcap : 0 < capacity) :
    ∀ (fuel idx : Nat) (tomb : Option Nat), idx < capacity →
      (∃ j, j < fuel ∧
        entries.getD ((idx + j) % capacity) emptyEntry = emptyEntry) →
      ∃ r, findEntryGo entries capacity key idx tomb fuel = some r := by
  intro fuel
  induction fuel with
  | zero => intro idx tomb _ ⟨j, hj, _⟩; omega
  | succ n ih =>
    intro idx tomb hidx ⟨j, hj, hemp⟩
    rw [findEntryGo]
    by_cases h1 : (entries.getD idx emptyEntry).key = none
    · by_cases h2 : (entries.getD idx emptyEntry).value = Value.nil
      · exact ⟨tomb.getD idx, by rw [if_pos h1, if_pos h2]⟩
      · have hj0 : j ≠ 0 := by
          intro h0
          rw [h0, Nat.add_zero, Nat.mod_eq_of_lt hidx] at hemp
          exact h2 (entry_eq_empty.1 hemp).2
        obtain ⟨j1, rfl⟩ := Nat.exists_eq_succ_of_ne_zero hj0
        obtain ⟨r, hr⟩ := ih ((idx + 1) % capacity)
          (if tomb = none then some idx else tomb) (Nat.mod_lt _ hcap)
          ⟨j1, by omega, by
            rw [Nat.mod_add_mod]
            have : idx + 1 + j1 = idx + (j1 + 1) := by omega
            rw [this]; exact hemp⟩
        exact ⟨r, by rw [if_pos h1, if_neg h2]; exact hr⟩
    · by_cases h3 : (entries.getD idx emptyEntry).key = some key
      · exact ⟨idx, by rw [if_neg h1, if_pos h3]⟩
      · have hj0 : j ≠ 0 := by
          intro h0
          rw [h0, Nat.add_zero, Nat.mod_eq_of_lt hidx] at hemp
          exact h1 (entry_eq_empty.1 hemp).1
        obtain ⟨j1, rfl⟩ := Nat.exists_eq_succ_of_ne_zero hj0
        obtain ⟨r, hr⟩ := ih ((idx + 1) % capacity) tomb (Nat.mod_lt _ hcap)
          ⟨j1, by omega, by
            rw [Nat.mod_add_mod]
            have : idx + 1 + j1 = idx + (j1 + 1) := by omega
            rw [this]; exact hemp⟩
        exact ⟨r, by rw [if_neg h1, if_neg h3]; exact hr⟩

theorem findEntryGo_classify {entries : List Entry} {capacity key : Nat} :
    ∀ (fuel idx : Nat) (tomb : Option Nat) (r : Nat),
      (∀ q, tomb = some q → (entries.getD q emptyEntry).key = none) →
      findEntryGo entries capacity key idx tomb fuel = some r →
      (entries.getD r emptyEntry).key = none ∨
        (entries.getD r emptyEntry).key = some key := by
  intro fuel
  induction fuel with
  | zero => intro idx tomb r _ h; simp [findEntryGo] at h
  | succ n ih =>
    intro idx tomb r htomb h
    rw [findEntryGo] at h
    split at h
    next h1 =>
      split at h
      next h2 =>
        cases tomb with
        | none => simp at h; exact Or.inl (h ▸ h1)
        | some q => simp at h; exact Or.inl (h ▸ htomb q rfl)
      next h2 =>
        refine ih _ _ r ?_ h
        intro q hq
        split at hq
        · simp at hq; exact hq ▸ h1
        · exact htomb q hq
    next h1 =>
      split at h
      next h3 => simp at h; exact Or.inr (h ▸ h3)
      next h3 => exact ih _ _ r htomb h

theorem findEntryGo_set_self {entries : List Entry} {capacity key : Nat}
    {v : Value} {r : Nat} (hr : r < entries.length)
    (hclass : (entries.getD r emptyEntry).key = none ∨
      (entries.getD r emptyEntry).key = some key) :
    ∀ (fuel idx : Nat) (tomb : Option Nat),
      (∀ q, tomb = some q → (entries.getD q emptyEntry).key = none ∧
        (entries.getD q emptyEntry).value ≠ Value.nil) →
      findEntryGo entries capacity key idx tomb fuel = some r →
      findEntryGo (entries.set r ⟨some key, v⟩) capacity key idx tomb fuel
        = some r := by
  intro fuel
  induction fuel with
  | zero => intro idx tomb _ h; simp [findEntryGo] at h
  | succ n ih =>
    intro idx tomb htomb h
    by_cases hir : idx = r
    · subst hir
      rw [findEntryGo]
      rw [getD_set_self hr]
      simp
    · have hagree : (entries.set r ⟨some key, v⟩).getD idx emptyEntry
          = entries.getD idx emptyEntry := getD_set_ne hir _ _
      rw [findEntryGo] at h ⊢
      rw [hagree]
      split at h
      next h1 =>
        split at h
        next h2 =>
          rw [if_pos h1, if_pos h2]
          exact h
        next h2 =>
          rw [if_pos h1, if_neg h2]
          refine ih _ _ ?_ h
          intro q hq
          split at hq
          · simp at hq; exact hq ▸ ⟨h1, h2⟩
          · exact htomb q hq
      next h1 =>
        split at h
        next h3 =>
          simp at h
          exact absurd h hir
        next h3 =>
          rw [if_neg h1, if_neg h3]
          exact ih _ _ htomb h

theorem findEntryGo_set_other {entries : List Entry} {capacity key k2 : Nat}
    {v : Value} {r b1 : Nat}
    (hb1 : (entries.getD b1 emptyEntry).key = some key)
    (hrE : entries.getD r emptyEntry = emptyEntry) :
    ∀ (fuel idx : Nat) (tomb : Option Nat),
      (∀ q, tomb = some q → (entries.getD q emptyEntry).key = none) →
      findEntryGo entries capacity key idx tomb fuel = some b1 →
      findEntryGo (entries.set r ⟨some k2, v⟩) capacity key idx tomb fuel
        = some b1 := by
  intro fuel
  induction fuel with
  | zero => intro idx tomb _ h; simp [findEntryGo] at h
  | succ n ih =>
    intro idx tomb htomb h
    rw [findEntryGo] at h
    split at h
    next h1 =>
      split at h
      next h2 =>
        -- empty bucket: the run would return a keyless bucket, impossible
        exfalso
        cases tomb with
        | none =>
          simp at h
          rw [h] at h1
          rw [h1] at hb1
          exact Option.noConfusion hb1
        | some q =>
          simp at h
          have := htomb q rfl
          rw [h] at this
          rw [this] at hb1
          exact Option.noConfusion hb1
      next h2 =>
        -- tombstone at idx, hence idx ≠ r
        have hir : idx ≠ r := by
          intro he
          rw [he, hrE] at h2
          exact h2 rfl
        have hagree : (entries.set r ⟨some k2, v⟩).getD idx emptyEntry
            = entries.getD idx emptyEntry := getD_set_ne hir _ _
        rw [findEntryGo, hagree, if_pos h1, if_neg h2]
        refine ih _ _ ?_ h
        intro q hq
        split at hq
        · simp at hq; exact hq ▸ h1
        · exact htomb q hq
    next h1 =>
      split at h
      next h3 =>
        -- key match at idx: idx = b1, bucket live hence idx ≠ r
        simp at h
        subst h
        have hir : idx ≠ r := by
          intro he
          rw [he, hrE] at h3
          exact Option.noConfusion h3
        have hagree : (entries.set r ⟨some k2, v⟩).getD idx emptyEntry
            = entries.getD idx emptyEntry := getD_set_ne hir _ _
        rw [findEntryGo, hagree, if_neg h1, if_pos h3]
      next h3 =>
        -- live bucket with another key, hence idx ≠ r
        have hir : idx ≠ r := by
          intro he
          rw [he, hrE] at h1
          exact h1 rfl
        have hagree : (entries.set r ⟨some k2, v⟩).getD idx emptyEntry
            = entries.getD idx emptyEntry := getD_set_ne hir _ _
        rw [findEntryGo, hagree, if_neg h1, if_neg h3]
        exact ih _ _ htomb h

theorem countP_set_add (p : Entry → Bool) (l : List Entry) (i : Nat)
    (x : Entry) (h : i < l.length) :
    (l.set i x).countP p + (if p (l.getD i emptyEntry) then 1 else 0)
      = l.countP p + (if p x then 1 else 0) := by
  induction l generalizing i with
  | nil => simp at h
  | cons a tl ih =>
    cases i with
    | zero =>
      simp only [List.set_cons_zero, List.countP_cons, List.getD_cons_zero]
      split_ifs <;> omega
    | succ m =>
      simp only [List.set_cons_succ, List.countP_cons, List.getD_cons_succ]
      have := ih m (Nat.lt_of_succ_lt_succ (by simpa using h))
      split_ifs at this ⊢ <;> omega

theorem usedCount_le_length (entries : List Entry) :
    usedCount entries ≤ entries.length :=
  List.countP_le_length _

theorem liveCount_le_usedCount (entries : List Entry) :
    liveCount entries ≤ usedCount entries := by
  unfold liveCount usedCount
  induction entries with
  | nil => simp
  | cons a tl ih =>
    simp only [List.countP_cons]
    have : (if a.key.isSome then 1 else 0) ≤
        (if decide (¬(a.key = none ∧ a.value = Value.nil)) then 1 else 0) := by
      cases hk : a.key <;> simp [hk]
    omega

theorem liveCount_eq_usedCount_of_noTombs {entries : List Entry}
    (h : NoTombs entries) : liveCount entries = usedCount entries := by
  unfold liveCount usedCount
  refine List.countP_congr ?_
  intro e he
  cases hk : e.key with
  | none => simp [hk, h e he hk]
  | some k => simp [hk]

theorem exists_empty_slot {entries : List Entry}
    (h : usedCount entries < entries.length) :
    ∃ j, j < entries.length ∧ entries.getD j emptyEntry = emptyEntry := by
  by_contra hc
  push_neg at hc
  have hall : ∀ e ∈ entries,
      (decide (¬(e.key = none ∧ e.value = Value.nil))) = true := by
    intro e he
    obtain ⟨i, hi, hie⟩ := List.mem_iff_getElem.1 he
    have hne := hc i hi
    have hgd : entries.getD i emptyEntry = e := by
      simp [List.getD_eq_getElem?_getD, List.getElem?_eq_getElem hi, hie]
    rw [hgd] at hne
    simp only [decide_eq_true_eq]
    intro hkv
    exact hne (entry_eq_empty.2 hkv)
  have := List.countP_eq_length.2 hall
  unfold usedCount at h
  omega

theorem findEntry_succeeds (hashOf : Nat → Nat) {entries : List Entry}
    {capacity : Nat} (key : Nat) (hlen : entries.length = capacity)
    (hcap : 0 < capacity) (hused : usedCount entries < capacity) :
    ∃ r, findEntry hashOf entries capacity key = some r ∧ r < capacity ∧
      ((entries.getD r emptyEntry).key = none ∨
        (entries.getD r emptyEntry).key = some key) := by
  obtain ⟨jE, hjE, hE⟩ := exists_empty_slot (hlen ▸ hused)
  rw [hlen] at hjE
  have hstart : hashOf key % capacity < capacity := Nat.mod_lt _ hcap
  have hex : ∃ j, j < capacity ∧
      entries.getD ((hashOf key % capacity + j) % capacity) emptyEntry
        = emptyEntry := by
    refine ⟨(jE + capacity - hashOf key % capacity) % capacity,
      Nat.mod_lt _ hcap, ?_⟩
    rw [Nat.add_mod_mod]
    have h1 : hashOf key % capacity +
        (jE + capacity - hashOf key % capacity) = jE + capacity := by omega
    rw [h1, Nat.add_mod_right, Nat.mod_eq_of_lt hjE]
    exact hE
  obtain ⟨r, hr⟩ := findEntryGo_isSome hcap capacity
    (hashOf key % capacity) none hstart hex
  exact ⟨r, hr,
    findEntryGo_lt_cap hcap capacity (hashOf key % capacity) none r hstart
      (by simp) hr,
    findEntryGo_classify capacity (hashOf key % capacity) none r
      (by simp) hr⟩

theorem liveCount_nil : liveCount [] = 0 := rfl

theorem liveCount_cons_none {e : Entry} (rest : List Entry)
    (hk : e.key = none) : liveCount (e :: rest) = liveCount rest := by
  unfold liveCount
  rw [List.countP_cons]
  simp [hk]

theorem liveCount_cons_some {e : Entry} (rest : List Entry) {k : Nat}
    (hk : e.key = some k) : liveCount (e :: rest) = liveCount rest + 1 := by
  unfold liveCount
  rw [List.countP_cons]
  simp [hk]

theorem reinsertAll_ok (hashOf : Nat → Nat) (newcap : Nat) :
    ∀ (old : List Entry) (cnt : Nat) (arr : List Entry),
      arr.length = newcap →
      NoTombs arr →
      liveCount arr + liveCount old < newcap →
      ∃ cnt2 arr2,
        reinsertAll hashOf newcap old cnt arr = some (cnt2, arr2) ∧
        arr2.length = newcap ∧
        NoTombs arr2 ∧
        liveCount arr2 ≤ liveCount arr + liveCount old ∧
        cnt2 = cnt + liveCount old := by
  intro old
  induction old with
  | nil =>
    intro cnt arr hl hnt hb
    exact ⟨cnt, arr, rfl, hl, hnt, by simp [liveCount_nil], by
      simp [liveCount_nil]⟩
  | cons e rest ih =>
    intro cnt arr hl hnt hb
    cases hk : e.key with
    | none =>
      have hlc := liveCount_cons_none rest hk
      obtain ⟨c2, a2, hrec, hp1, hp2, hp3, hp4⟩ :=
        ih cnt arr hl hnt (by omega)
      refine ⟨c2, a2, ?_, hp1, hp2, by omega, by omega⟩
      simp only [reinsertAll, hk]
      exact hrec
    | some k =>
      have hlc := liveCount_cons_some rest hk
      have hcap : 0 < newcap := by omega
      have hused : usedCount arr < newcap := by
        rw [← liveCount_eq_usedCount_of_noTombs hnt]
        omega
      obtain ⟨dest, hdest, hdlt, hdclass⟩ :=
        findEntry_succeeds hashOf k hl hcap hused
      have hdlen : dest < arr.length := hl ▸ hdlt
      have hnt2 : NoTombs (arr.set dest ⟨some k, e.value⟩) := by
        intro e2 he2 hk2
        rcases List.mem_or_eq_of_mem_set he2 with h | h
        · exact hnt e2 h hk2
        · rw [h] at hk2; exact Option.noConfusion hk2
      have hlc2 : liveCount (arr.set dest ⟨some k, e.value⟩)
          ≤ liveCount arr + 1 := by
        have := countP_set_add (fun e => e.key.isSome) arr dest
          ⟨some k, e.value⟩ hdlen
        unfold liveCount
        simp only [Option.isSome_some, if_true] at this
        omega
      obtain ⟨c2, a2, hrec, hp1, hp2, hp3, hp4⟩ :=
        ih (cnt + 1) (arr.set dest ⟨some k, e.value⟩)
          (by rw [List.length_set]; exact hl) hnt2 (by omega)
      refine ⟨c2, a2, ?_, hp1, hp2, by omega, by omega⟩
      simp only [reinsertAll, hk, hdest]
      exact hrec

theorem growCapacity_gt (c : Nat) : c < growCapacity c := by
  unfold growCapacity; split <;> omega

theorem adjustCapacity_ok (hashOf : Nat → Nat) (t : Table) (newcap : Nat)
    (hlen : t.entries.length = t.capacity) (hcap : t.capacity < newcap) :
    ∃ t2, adjustCapacity hashOf t newcap = some t2 ∧
      t2.capacity = newcap ∧ t2.entries.length = newcap ∧
      NoTombs t2.entries ∧
      liveCount t2.entries ≤ liveCount t.entries ∧
      t2.count = liveCount t.entries := by
  have h1 : (List.replicate newcap emptyEntry).length = newcap :=
    List.length_replicate newcap emptyEntry
  have h2 : NoTombs (List.replicate newcap emptyEntry) := by
    intro e he _
    rw [(List.mem_replicate.1 he).2]
    rfl
  have h0 : liveCount (List.replicate newcap emptyEntry) = 0 := by
    unfold liveCount
    refine List.countP_eq_zero.2 ?_
    intro e he
    rw [(List.mem_replicate.1 he).2]
    simp [emptyEntry]
  have hlive : liveCount t.entries ≤ t.capacity := by
    calc liveCount t.entries ≤ usedCount t.entries :=
          liveCount_le_usedCount t.entries
      _ ≤ t.entries.length := usedCount_le_length t.entries
      _ = t.capacity := hlen
  obtain ⟨c2, a2, hrec, hp1, hp2, hp3, hp4⟩ :=
    reinsertAll_ok hashOf newcap t.entries 0
      (List.replicate newcap emptyEntry) h1 h2 (by omega)
  refine ⟨⟨c2, newcap, a2⟩, ?_, rfl, hp1, hp2, ?_, ?_⟩
  · unfold adjustCapacity
    rw [hrec]
  · show liveCount a2 ≤ liveCount t.entries
    omega
  · show c2 = liveCount t.entries
    omega

theorem insert_then_get (hashOf : Nat → Nat) (entries : List Entry)
    (capacity k : Nat) (v : Value) (idx : Nat)
    (hlen : entries.length = capacity)
    (hfind : findEntry hashOf entries capacity k = some idx)
    (hidx : idx < capacity)
    (hclass : (entries.getD idx emptyEntry).key = none ∨
      (entries.getD idx emptyEntry).key = some k)
    (c2 : Nat) (hc2 : c2 ≠ 0) :
    tableGet hashOf ⟨c2, capacity, entries.set idx ⟨some k, v⟩⟩ k
      = some (some v) := by
  have hidxl : idx < entries.length := by omega
  have hnew : findEntry hashOf (entries.set idx ⟨some k, v⟩) capacity k
      = some idx := by
    unfold findEntry at hfind ⊢
    exact findEntryGo_set_self hidxl hclass capacity
      (hashOf k % capacity) none (by simp) hfind
  have hbucket : (entries.set idx ⟨some k, v⟩).getD idx emptyEntry
      = ⟨some k, v⟩ := getD_set_self hidxl _ _
  simp only [tableGet]
  rw [if_neg hc2, hnew]
  simp only [hbucket]
  rfl

theorem tableSet_core (hashOf : Nat → Nat) (t1 t2 : Table) (k : Nat)
    (v : Value)
    (hgrown : (if 4 * (t1.count + 1) > 3 * t1.capacity then
        adjustCapacity hashOf t1 (growCapacity t1.capacity)
      else some t1) = some t2)
    (hlen2 : t2.entries.length = t2.capacity)
    (hcapPos : 0 < t2.capacity)
    (husedlt : usedCount t2.entries < t2.capacity)
    (husedle : usedCount t2.entries ≤ t2.count) :
    ∃ b3 t3, tableSet hashOf t1 k v = some (b3, t3) ∧
      tableGet hashOf t3 k = some (some v) := by
  obtain ⟨idx, hfind, hidxlt, hclass⟩ :=
    findEntry_succeeds hashOf k hlen2 hcapPos husedlt
  have hidxl : idx < t2.entries.length := by omega
  set e := t2.entries.getD idx emptyEntry with he
  set c1 := if e.key = none ∧ e.value = Value.nil then t2.count + 1
    else t2.count with hc1
  set c2 := if e.key = none then c1 + 1 else c1 with hc2
  have hc2pos : c2 ≠ 0 := by
    by_cases hkey : e.key = none
    · rw [hc2, if_pos hkey]; omega
    · have hk2 : e.key = some k := hclass.resolve_left hkey
      have hmem : e ∈ t2.entries := by
        rw [he]
        exact getD_mem hidxl
      have hupos : 0 < usedCount t2.entries := by
        unfold usedCount
        refine List.countP_pos_iff.2 ⟨e, hmem, ?_⟩
        simp [hk2]
      rw [hc2, if_neg hkey, hc1,
        if_neg (fun hh => hkey hh.1)]
      omega
  refine ⟨decide (e.key = none),
    ⟨c2, t2.capacity, t2.entries.set idx ⟨some k, v⟩⟩, ?_, ?_⟩
  · simp only [tableSet, hgrown, hfind]
  · exact insert_then_get hashOf t2.entries t2.capacity k v idx hlen2 hfind
      hidxlt hclass c2 hc2pos

theorem tableSet_get (hashOf : Nat → Nat) (t1 : Table) (k : Nat) (v : Value)
    (hlen : t1.entries.length = t1.capacity)
    (hused : usedCount t1.entries ≤ t1.count) :
    ∃ b2 t2, tableSet hashOf t1 k v = some (b2, t2) ∧
      tableGet hashOf t2 k = some (some v) := by
  by_cases hg : 4 * (t1.count + 1) > 3 * t1.capacity
  · obtain ⟨t', hadj, hcap', hlen', hnt', hlc', hcnt'⟩ :=
      adjustCapacity_ok hashOf t1 (growCapacity t1.capacity) hlen
        (growCapacity_gt _)
    have hgg := growCapacity_gt t1.capacity
    have hlive : liveCount t1.entries ≤ t1.capacity := by
      have h1 := liveCount_le_usedCount t1.entries
      have h2 := usedCount_le_length t1.entries
      omega
    have hueq := liveCount_eq_usedCount_of_noTombs hnt'
    refine tableSet_core hashOf t1 t' k v (by rw [if_pos hg]; exact hadj)
      (by rw [hcap']; exact hlen') (by omega) (by omega) (by omega)
  · refine tableSet_core hashOf t1 t1 k v (by rw [if_neg hg]) hlen
      (by omega) (by omega) (by omega)

/-- C4: deleting a key, re-inserting it with value `v`, then looking it up
yields `v`, for every well-formed table state (entries array of length
`capacity`, at most `count` non-Empty buckets, and an Empty bucket available
whenever `count > 0`). The delete writes the tombstone `⟨NULL, Bool(true)⟩`;
the subsequent set reuses that bucket (or the key's live bucket, or a fresh
one after a resize), and the get probes to exactly the bucket the set wrote,
so it returns `v`. All three operations provably terminate under these
hypotheses. -/
theorem delete_set_get (hashOf : Nat → Nat) (t : Table) (k : Nat) (v : Value)
    (hlen : t.entries.length = t.capacity)
    (hused : usedCount t.entries ≤ t.count)
    (hroom : usedCount t.entries < t.capacity ∨ t.count = 0) :
    ∃ b1 t1, tableDelete hashOf t k = some (b1, t1) ∧
      ∃ b2 t2, tableSet hashOf t1 k v = some (b2, t2) ∧
        tableGet hashOf t2 k = some (some v) := by
  by_cases hz : t.count = 0
  · refine ⟨false, t, ?_, tableSet_get hashOf t k v hlen hused⟩
    simp [tableDelete, hz]
  · have hroom2 : usedCount t.entries < t.capacity := hroom.resolve_right hz
    have hcapPos : 0 < t.capacity := by omega
    obtain ⟨idx, hfind, hidxlt, hclass⟩ :=
      findEntry_succeeds hashOf k hlen hcapPos hroom2
    have hidxl : idx < t.entries.length := by omega
    by_cases hkey : (t.entries.getD idx emptyEntry).key = none
    · refine ⟨false, t, ?_, tableSet_get hashOf t k v hlen hused⟩
      simp only [tableDelete, if_neg hz, hfind, if_pos hkey]
    · set t1 : Table :=
        ⟨t.count, t.capacity, t.entries.set idx ⟨none, Value.bool true⟩⟩
        with ht1
      have hdel : tableDelete hashOf t k = some (true, t1) := by
        simp only [tableDelete, if_neg hz, hfind, if_neg hkey, ht1]
      have hlen1 : t1.entries.length = t1.capacity := by
        show (t.entries.set idx ⟨none, Value.bool true⟩).length = t.capacity
        rw [List.length_set]
        exact hlen
      have hused1 : usedCount t1.entries ≤ t1.count := by
        show usedCount (t.entries.set idx ⟨none, Value.bool true⟩) ≤ t.count
        have hadd := countP_set_add
          (fun e => decide (¬(e.key = none ∧ e.value = Value.nil)))
          t.entries idx ⟨none, Value.bool true⟩ hidxl
        unfold usedCount at hused ⊢
        split_ifs at hadd with h1 h2 h3
        · omega
        · simp at h2
        · simp only [decide_eq_true_eq, not_not] at h1
          exact absurd h1.1 hkey
        · simp only [decide_eq_true_eq, not_not] at h1
          exact absurd h1.1 hkey
      exact ⟨true, t1, hdel, tableSet_get hashOf t1 k v hlen1 hused1⟩

/-- Witness for C4 at the freshly initialised table: delete misses, the set
grows the table to capacity 8 and inserts, the get returns the value. -/
theorem delete_set_get_witness :
    ∃ b1 t1, tableDelete (fun _ => 0) initTable 7 = some (b1, t1) ∧
      ∃ b2 t2, tableSet (fun _ => 0) t1 7 (Value.number "9") = some (b2, t2) ∧
        tableGet (fun _ => 0) t2 7 = some (some (Value.number "9")) :=
  delete_set_get (fun _ => 0) initTable 7 (Value.number "9") rfl
    (by decide) (Or.inr rfl)

theorem reinsertAll_preserves (hashOf : Nat → Nat) (newcap : Nat) :
    ∀ (old : List Entry) (cnt : Nat) (arr : List Entry),
      arr.length = newcap →
      NoTombs arr →
      liveCount arr + liveCount old < newcap →
      (old.filterMap Entry.key).Nodup →
      (∀ k, k ∈ arr.filterMap Entry.key → k ∉ old.filterMap Entry.key) →
      (∀ k v, (⟨some k, v⟩ : Entry) ∈ arr →
        ∃ b, findEntry hashOf arr newcap k = some b ∧
          arr.getD b emptyEntry = ⟨some k, v⟩) →
      ∃ cnt2 arr2,
        reinsertAll hashOf newcap old cnt arr = some (cnt2, arr2) ∧
        arr2.length = newcap ∧
        NoTombs arr2 ∧
        liveCount arr2 = liveCount arr + liveCount old ∧
        cnt2 = cnt + liveCount old ∧
        (∀ k v, (⟨some k, v⟩ : Entry) ∈ arr2 ↔
          ((⟨some k, v⟩ : Entry) ∈ arr ∨ (⟨some k, v⟩ : Entry) ∈ old)) ∧
        (∀ k v, (⟨some k, v⟩ : Entry) ∈ arr2 →
          ∃ b, findEntry hashOf arr2 newcap k = some b ∧
            arr2.getD b emptyEntry = ⟨some k, v⟩) := by
  intro old
  induction old with
  | nil =>
    intro cnt arr hl hnt hb hnd hdisj hret
    refine ⟨cnt, arr, rfl, hl, hnt, by simp [liveCount_nil],
      by simp [liveCount_nil], ?_, hret⟩
    intro k v
    simp
  | cons e rest ih =>
    obtain ⟨ek, ev⟩ := e
    intro cnt arr hl hnt hb hnd hdisj hret
    cases ek with
    | none =>
      have hlc : liveCount ((⟨none, ev⟩ : Entry) :: rest) = liveCount rest :=
        liveCount_cons_none rest rfl
      have hnd2 : (rest.filterMap Entry.key).Nodup := by
        simpa using hnd
      have hdisj2 : ∀ k, k ∈ arr.filterMap Entry.key →
          k ∉ rest.filterMap Entry.key := by
        intro k hk
        have := hdisj k hk
        simpa using this
      obtain ⟨c2, a2, hrec, hp1, hp2, hp3, hp4, hp5, hp6⟩ :=
        ih cnt arr hl hnt (by omega) hnd2 hdisj2 hret
      refine ⟨c2, a2, ?_, hp1, hp2, by omega, by omega, ?_, hp6⟩
      · simp only [reinsertAll]
        exact hrec
      · intro k v
        rw [hp5 k v, List.mem_cons]
        constructor
        · rintro (h | h)
          · exact Or.inl h
          · exact Or.inr (Or.inr h)
        · rintro (h | h | h)
          · exact Or.inl h
          · exact absurd (congrArg Entry.key h) (by simp)
          · exact Or.inr h
    | some k =>
      have hlc : liveCount ((⟨some k, ev⟩ : Entry) :: rest)
          = liveCount rest + 1 := liveCount_cons_some rest rfl
      have hnd' : k ∉ rest.filterMap Entry.key ∧
          (rest.filterMap Entry.key).Nodup := by
        rw [show ((⟨some k, ev⟩ : Entry) :: rest).filterMap Entry.key
              = k :: rest.filterMap Entry.key from rfl,
          List.nodup_cons] at hnd
        exact hnd
      have hknotin : k ∉ rest.filterMap Entry.key := hnd'.1
      have hnd2 : (rest.filterMap Entry.key).Nodup := hnd'.2
      have hknotarr : k ∉ arr.filterMap Entry.key := by
        intro hk
        exact hdisj k hk (by simp)
      have hcap : 0 < newcap := by omega
      have hused : usedCount arr < newcap := by
        rw [← liveCount_eq_usedCount_of_noTombs hnt]
        omega
      obtain ⟨dest, hdest, hdlt, hdclass⟩ :=
        findEntry_succeeds hashOf k hl hcap hused
      have hdlen : dest < arr.length := by omega
      have hdempty : arr.getD dest emptyEntry = emptyEntry := by
        rcases hdclass with h | h
        · exact entry_eq_empty.2 ⟨h, hnt _ (getD_mem hdlen) h⟩
        · exfalso
          apply hknotarr
          refine List.mem_filterMap.2 ⟨arr.getD dest emptyEntry,
            getD_mem hdlen, h⟩
      have hnt2 : NoTombs (arr.set dest ⟨some k, ev⟩) := by
        intro e2 he2 hk2
        rcases List.mem_or_eq_of_mem_set he2 with h | h
        · exact hnt e2 h hk2
        · rw [h] at hk2; exact Option.noConfusion hk2
      have hlc2 : liveCount (arr.set dest ⟨some k, ev⟩)
          = liveCount arr + 1 := by
        have hthis := countP_set_add (fun e => e.key.isSome) arr dest
          ⟨some k, ev⟩ hdlen
        simp only [hdempty] at hthis
        simp only [show ((fun (e : Entry) => e.key.isSome) emptyEntry)
            = false from rfl,
          show ((fun (e : Entry) => e.key.isSome) (⟨some k, ev⟩ : Entry))
            = true from rfl] at hthis
        simp at hthis
        unfold liveCount
        omega
      have hmem2 : ∀ (k2 : Nat) (v2 : Value),
          (⟨some k2, v2⟩ : Entry) ∈ arr.set dest ⟨some k, ev⟩ ↔
          ((⟨some k2, v2⟩ : Entry) ∈ arr ∨
            (⟨some k2, v2⟩ : Entry) = ⟨some k, ev⟩) := by
        intro k2 v2
        constructor
        · intro h
          rcases List.mem_or_eq_of_mem_set h with h | h
          · exact Or.inl h
          · exact Or.inr h
        · rintro (h | h)
          · refine mem_set_of_mem_ne h ?_
            rw [hdempty]
            intro he
            exact Option.noConfusion (congrArg Entry.key he)
          · rw [h]
            exact mem_set_self hdlen _
      have hdisj2 : ∀ k2, k2 ∈ (arr.set dest ⟨some k, ev⟩).filterMap
          Entry.key → k2 ∉ rest.filterMap Entry.key := by
        intro k2 hk2
        obtain ⟨e2, he2, hke2⟩ := List.mem_filterMap.1 hk2
        rcases List.mem_or_eq_of_mem_set he2 with h | h
        · intro hin
          refine hdisj k2 (List.mem_filterMap.2 ⟨e2, h, hke2⟩) ?_
          rw [show ((⟨some k, ev⟩ : Entry) :: rest).filterMap Entry.key
                = k :: rest.filterMap Entry.key from rfl]
          exact List.mem_cons_of_mem _ hin
        · rw [h] at hke2
          simp at hke2
          rw [← hke2]
          exact hknotin
      have hret2 : ∀ (k2 : Nat) (v2 : Value),
          (⟨some k2, v2⟩ : Entry) ∈ arr.set dest ⟨some k, ev⟩ →
          ∃ b, findEntry hashOf (arr.set dest ⟨some k, ev⟩) newcap k2
              = some b ∧
            (arr.set dest ⟨some k, ev⟩).getD b emptyEntry
              = ⟨some k2, v2⟩ := by
        intro k2 v2 hmem
        rcases (hmem2 k2 v2).1 hmem with h | h
        · obtain ⟨b, hfb, hgb⟩ := hret k2 v2 h
          have hbne : b ≠ dest := by
            intro he
            rw [he, hdempty] at hgb
            exact Option.noConfusion (congrArg Entry.key hgb).symm
          refine ⟨b, ?_, ?_⟩
          · unfold findEntry at hfb ⊢
            exact findEntryGo_set_other (by rw [hgb]) hdempty newcap
              (hashOf k2 % newcap) none (by simp) hfb
          · rw [getD_set_ne hbne, hgb]
        · have hk2k : k2 = k := by
            have := congrArg Entry.key h
            simpa using this
          have hv2 : v2 = ev := by
            have := congrArg Entry.value h
            simpa using this
          subst hk2k
          subst hv2
          refine ⟨dest, ?_, getD_set_self hdlen _ _⟩
          unfold findEntry at hdest ⊢
          exact findEntryGo_set_self hdlen hdclass newcap
            (hashOf k2 % newcap) none (by simp) hdest
      obtain ⟨c2, a2, hrec, hp1, hp2, hp3, hp4, hp5, hp6⟩ :=
        ih (cnt + 1) (arr.set dest ⟨some k, ev⟩)
          (by rw [List.length_set]; exact hl) hnt2 (by omega) hnd2 hdisj2
          hret2
      refine ⟨c2, a2, ?_, hp1, hp2, by omega, by omega, ?_, hp6⟩
      · simp only [reinsertAll, hdest]
        exact hrec
      · intro k2 v2
        rw [hp5 k2 v2, hmem2 k2 v2, List.mem_cons]
        tauto

/-- C5: for a well-formed table (entries array of length `capacity`, pairwise
distinct live keys) and any strictly larger new capacity, `adjustCapacity`
terminates and preserves the mapping of live pairs exactly: a live `(k, v)`
bucket exists in the new array iff it existed in the old one, every old live
pair is retrievable through `findEntry` against the new array with the same
value, tombstones are dropped (no tombstone bucket remains), and `count` is
recomputed to the number of live entries. -/
theorem adjustCapacity_preserves (hashOf : Nat → Nat) (t : Table)
    (newcap : Nat) (hlen : t.entries.length = t.capacity)
    (hcap : t.capacity < newcap)
    (hnodup : (t.entries.filterMap Entry.key).Nodup) :
    ∃ t2, adjustCapacity hashOf t newcap = some t2 ∧
      t2.capacity = newcap ∧
      t2.entries.length = newcap ∧
      t2.count = liveCount t.entries ∧
      liveCount t2.entries = liveCount t.entries ∧
      NoTombs t2.entries ∧
      (∀ k v, (⟨some k, v⟩ : Entry) ∈ t2.entries ↔
        (⟨some k, v⟩ : Entry) ∈ t.entries) ∧
      (∀ k v, (⟨some k, v⟩ : Entry) ∈ t.entries →
        ∃ b, findEntry hashOf t2.entries newcap k = some b ∧
          t2.entries.getD b emptyEntry = ⟨some k, v⟩) := by
  have h1 : (List.replicate newcap emptyEntry).length = newcap :=
    List.length_replicate newcap emptyEntry
  have h2 : NoTombs (List.replicate newcap emptyEntry) := by
    intro e he _
    rw [(List.mem_replicate.1 he).2]
    rfl
  have h0 : liveCount (List.replicate newcap emptyEntry) = 0 := by
    unfold liveCount
    refine List.countP_eq_zero.2 ?_
    intro e he
    rw [(List.mem_replicate.1 he).2]
    simp [emptyEntry]
  have hlive : liveCount t.entries ≤ t.capacity := by
    have ha := liveCount_le_usedCount t.entries
    have hb := usedCount_le_length t.entries
    omega
  have hdisj : ∀ k, k ∈ (List.replicate newcap emptyEntry).filterMap
      Entry.key → k ∉ t.entries.filterMap Entry.key := by
    intro k hk
    obtain ⟨e, he, hke⟩ := List.mem_filterMap.1 hk
    rw [(List.mem_replicate.1 he).2] at hke
    exact absurd hke (by simp [emptyEntry])
  have hret0 : ∀ k v, (⟨some k, v⟩ : Entry)
      ∈ List.replicate newcap emptyEntry →
      ∃ b, findEntry hashOf (List.replicate newcap emptyEntry) newcap k
          = some b ∧
        (List.replicate newcap emptyEntry).getD b emptyEntry
          = ⟨some k, v⟩ := by
    intro k v hmem
    have := (List.mem_replicate.1 hmem).2
    exact absurd (congrArg Entry.key this) (by simp [emptyEntry])
  obtain ⟨c2, a2, hrec, hp1, hp2, hp3, hp4, hp5, hp6⟩ :=
    reinsertAll_preserves hashOf newcap t.entries 0
      (List.replicate newcap emptyEntry) h1 h2 (by omega) hnodup hdisj hret0
  have hmemIff : ∀ k v, (⟨some k, v⟩ : Entry) ∈ a2 ↔
      (⟨some k, v⟩ : Entry) ∈ t.entries := by
    intro k v
    rw [hp5 k v]
    constructor
    · rintro (h | h)
      · have := (List.mem_replicate.1 h).2
        exact absurd (congrArg Entry.key this) (by simp [emptyEntry])
      · exact h
    · exact Or.inr
  refine ⟨⟨c2, newcap, a2⟩, ?_, rfl, hp1, ?_, ?_, hp2, hmemIff, ?_⟩
  · unfold adjustCapacity
    rw [hrec]
  · show c2 = liveCount t.entries
    omega
  · show liveCount a2 = liveCount t.entries
    omega
  · intro k v hmem
    exact hp6 k v ((hmemIff k v).2 hmem)

/-- Witness for C5: resizing the capacity-2 table holding the live pair
`(5, Bool(false))` and one tombstone to capacity 8. -/
theorem adjustCapacity_preserves_witness :
    ∃ t2, adjustCapacity (fun _ => 0) resizeWitnessTable 8 = some t2 ∧
      t2.capacity = 8 ∧
      t2.entries.length = 8 ∧
      t2.count = liveCount resizeWitnessTable.entries ∧
      liveCount t2.entries = liveCount resizeWitnessTable.entries ∧
      NoTombs t2.entries ∧
      (∀ k v, (⟨some k, v⟩ : Entry) ∈ t2.entries ↔
        (⟨some k, v⟩ : Entry) ∈ resizeWitnessTable.entries) ∧
      (∀ k v, (⟨some k, v⟩ : Entry) ∈ resizeWitnessTable.entries →
        ∃ b, findEntry (fun _ => 0) t2.entries 8 k = some b ∧
          t2.entries.getD b emptyEntry = ⟨some k, v⟩) :=
  adjustCapacity_preserves (fun _ => 0) resizeWitnessTable 8 rfl
    (by decide) (by decide)

end Clox
